import Mathlib

/-!
Verification of `interleaving/probabilistic.py` (probabilistic interleaving).

Modelling decisions, applied uniformly:

* Python floats are modelled as exact rationals (`ℚ`); the distribution
  parameter `tau` (a float in the source, default `3.0`) is modelled as a
  natural-number exponent, so `1.0 / r ** tau` becomes `1 / (r : ℚ) ^ tau`.
* The numpy random draws are passed in explicitly: `flips : ℕ → Fin 2` for
  `np.random.randint(0, 2)`, `draws : ℕ → ℚ` for `np.random.random()`
  (indexed by the number of draws made so far), and `shuffles : ℕ → List ℕ`
  for the result of `np.random.shuffle` in each round of `multileave`.
* Fallible code returns `Option`: a Python function that falls off its end
  returns `None`, modelled as `none`; an unhandled exception
  (`ZeroDivisionError`, `IndexError`, `ValueError` from `min()` on an empty
  sequence, or nontermination) is likewise modelled as a `none` result.
* `choice_one_of` can fall through its loop and return Python `None`; that
  `None` is appended to the result ranking like any other value, so ranking
  entries are modelled as `Option α` (`none` being Python's `None`).
* `list.remove` removes the first occurrence of a value and the source
  swallows the `ValueError` raised on absence; this is exactly `List.erase`.
* `list.pop()` pops from the tail, so a round of `multileave` consumes the
  shuffled index list in reverse order; the embedding reverses the list and
  consumes it head first.
-/

namespace ProbInterleave

def memberWeight (tau : ℕ) (r : ℤ) : Option ℚ :=
  if ((r : ℚ) ^ tau) = 0 then none else some (1 / (r : ℚ) ^ tau)

def wq (tau r : ℕ) : ℚ := 1 / (r : ℚ) ^ tau

def sumW (tau : ℕ) : ℕ → ℚ
  | 0 => 0
  | n + 1 => sumW tau n + wq tau (n + 1)

def cumulationAux (tau : ℕ) (denominator : ℚ) : List ℕ → ℚ → List ℚ
  | [], _ => []
  | r :: rs, numerator =>
    (numerator + wq tau r) / denominator ::
      cumulationAux tau denominator rs (numerator + wq tau r)

def cumulation (tau l : ℕ) : List ℚ :=
  cumulationAux tau (sumW tau l) (List.range' 1 (l - 1)) 0 ++ [1]

def scanChoice {α : Type} (f : ℚ) : List (ℚ × α) → Option α
  | [] => none
  | (c, x) :: rest => if f < c then some x else scanChoice f rest

def choice_one_of {α : Type} (tau : ℕ) (f : ℚ) (l : List α) : Option α :=
  scanChoice f ((cumulation tau l.length).zip l)

structure Ranking (α : Type) where
  docs : List (Option α)
  number_of_rankers : ℕ
  rank_to_ranker_index : List ℕ
  deriving DecidableEq

def removeDoc {α : Type} [DecidableEq α] (d : Option α) (l : List α) : List α :=
  match d with
  | none => l
  | some x => l.erase x

def interleaveGo {α : Type} [DecidableEq α] (tau : ℕ) (flips : ℕ → Fin 2) (draws : ℕ → ℚ)
    (k : ℕ) : ℕ → ℕ → List α → List α → List (Option α) → List ℕ →
    Option (List (Option α) × List ℕ)
  | 0, _, _, _, _, _ => none
  | n + 1, i, ra, rb, docs, idxs =>
    let document := choice_one_of tau (draws i) (if flips i = 0 then ra else rb)
    let docs2 := docs ++ [document]
    let idxs2 := idxs ++ [(flips i : ℕ)]
    if k ≤ docs2.length then some (docs2, idxs2)
    else
      interleaveGo tau flips draws k n (i + 1)
        (removeDoc document ra) (removeDoc document rb) docs2 idxs2

def interleave {α : Type} [DecidableEq α] (tau : ℕ) (flips : ℕ → Fin 2) (draws : ℕ → ℚ)
    (a b : List α) : Option (Ranking α) :=
  (interleaveGo tau flips draws (min a.length b.length) (min a.length b.length)
      0 a b [] []).map (fun p => ⟨p.1, 2, p.2⟩)

inductive InnerOut (α : Type) where
  | done : List (Option α) → List ℕ → InnerOut α
  | next : ℕ → List (List α) → List (Option α) → List ℕ → InnerOut α
  | crash : InnerOut α
  deriving DecidableEq

def multileaveInner {α : Type} [DecidableEq α] (tau k : ℕ) (draws : ℕ → ℚ) :
    List ℕ → ℕ → List (List α) → List (Option α) → List ℕ → InnerOut α
  | [], t, rankings, docs, idxs => .next t rankings docs idxs
  | idx :: rest, t, rankings, docs, idxs =>
    match rankings[idx]? with
    | none => .crash
    | some ranking =>
      let document := choice_one_of tau (draws t) ranking
      let docs2 := docs ++ [document]
      let idxs2 := idxs ++ [idx]
      if k ≤ docs2.length then .done docs2 idxs2
      else
        multileaveInner tau k draws rest (t + 1)
          (rankings.map (removeDoc document)) docs2 idxs2

def multileaveGo {α : Type} [DecidableEq α] (tau k : ℕ) (shuffles : ℕ → List ℕ)
    (draws : ℕ → ℚ) :
    ℕ → ℕ → ℕ → List (List α) → List (Option α) → List ℕ →
    Option (List (Option α) × List ℕ)
  | 0, _, _, _, _, _ => none
  | fuel + 1, round, t, rankings, docs, idxs =>
    match multileaveInner tau k draws ((shuffles round).reverse) t rankings docs idxs with
    | .done d i => some (d, i)
    | .crash => none
    | .next t2 r2 d2 i2 => multileaveGo tau k shuffles draws fuel (round + 1) t2 r2 d2 i2

def pyMin : List ℕ → Option ℕ
  | [] => none
  | x :: xs => some (xs.foldl min x)

def multileave {α : Type} [DecidableEq α] (tau : ℕ) (shuffles : ℕ → List ℕ)
    (draws : ℕ → ℚ) (lists : List (List α)) : Option (Ranking α) :=
  match pyMin (lists.map List.length) with
  | none => none
  | some k =>
    (multileaveGo tau k shuffles draws (k + 1) 0 0 lists [] []).map
      (fun p => ⟨p.1, lists.length, p.2⟩)

def pyGet {β : Type} (l : List β) (i : ℤ) : Option β :=
  let j := if i < 0 then (l.length : ℤ) + i else i
  if 0 ≤ j then l[j.toNat]? else none

def countClicks (rtri : List ℕ) : List ℤ → List ℕ → Option (List ℕ)
  | [], counts => some counts
  | d :: rest, counts =>
    (pyGet rtri d).bind fun idx =>
      if h : idx < counts.length then
        countClicks rtri rest (counts.set idx (counts.get ⟨idx, h⟩ + 1))
      else none

def evaluateCounts (rtri : List ℕ) (m : ℕ) (clicks : List ℤ) : Option (List ℕ) :=
  countClicks rtri clicks (List.replicate m 0)

def maxOf : List ℕ → ℕ
  | [] => 0
  | c :: cs => cs.foldl max c

def minOf : List ℕ → ℕ
  | [] => 0
  | c :: cs => cs.foldl min c

def evaluate {α : Type} (r : Ranking α) (clicks : List ℤ) : Option (List ℕ) :=
  (evaluateCounts r.rank_to_ranker_index r.number_of_rankers clicks).bind fun counts =>
    if counts.isEmpty then none
    else if maxOf counts = minOf counts then some (counts.map (fun _ => 0))
    else some (counts.map (fun c => if maxOf counts = c then 1 else 0))

def DrawsOK (draws : ℕ → ℚ) : Prop := ∀ j, 0 ≤ draws j ∧ draws j < 1

def InterNodupPre {α : Type} (k : ℕ) (ra rb : List α) (docs : List (Option α)) : Prop :=
  ra.Nodup ∧ rb.Nodup ∧ docs.Nodup ∧
  (∀ x : α, some x ∈ docs → x ∉ ra ∧ x ∉ rb) ∧
  (∀ d ∈ docs, d.isSome) ∧
  k ≤ docs.length + ra.length ∧ k ≤ docs.length + rb.length

def MultiNodupPre {α : Type} (k : ℕ) (rankings : List (List α))
    (docs : List (Option α)) : Prop :=
  (∀ l ∈ rankings, l.Nodup) ∧ docs.Nodup ∧
  (∀ x : α, some x ∈ docs → ∀ l ∈ rankings, x ∉ l) ∧
  (∀ d ∈ docs, d.isSome) ∧
  (∀ l ∈ rankings, k ≤ docs.length + l.length)

lemma wq_pos (tau : ℕ) {r : ℕ} (hr : 1 ≤ r) : 0 < wq tau r := by
  have h1 : (0 : ℚ) < (r : ℚ) := by exact_mod_cast Nat.lt_of_lt_of_le Nat.zero_lt_one hr
  have h2 : (0 : ℚ) < (r : ℚ) ^ tau := pow_pos h1 tau
  unfold wq
  exact div_pos one_pos h2

lemma sumW_nonneg (tau n : ℕ) : 0 ≤ sumW tau n := by
  induction n with
  | zero => exact le_refl 0
  | succ n ih => exact add_nonneg ih (wq_pos tau (Nat.le_add_left 1 n)).le

lemma sumW_pos (tau : ℕ) {n : ℕ} (hn : 1 ≤ n) : 0 < sumW tau n := by
  cases n with
  | zero => exact absurd hn (by decide)
  | succ n =>
    exact add_pos_of_nonneg_of_pos (sumW_nonneg tau n) (wq_pos tau (Nat.le_add_left 1 n))

lemma sumW_mono (tau : ℕ) {n m : ℕ} (h : n ≤ m) : sumW tau n ≤ sumW tau m := by
  induction m with
  | zero => cases Nat.le_zero.mp h; exact le_refl _
  | succ m ih =>
    rcases Nat.lt_or_ge n (m + 1) with h' | h'
    · exact (ih (Nat.lt_succ_iff.mp h')).trans
        (le_add_of_nonneg_right (wq_pos tau (Nat.le_add_left 1 m)).le)
    · have : n = m + 1 := Nat.le_antisymm h h'
      subst this; exact le_refl _

lemma cumulationAux_length (tau : ℕ) (D : ℚ) :
    ∀ (rs : List ℕ) (q : ℚ), (cumulationAux tau D rs q).length = rs.length := by
  intro rs
  induction rs with
  | nil => intro q; rfl
  | cons r rs ih => intro q; simp [cumulationAux, ih]

lemma cumulationAux_range' (tau : ℕ) (D : ℚ) :
    ∀ (len s : ℕ), cumulationAux tau D (List.range' (s + 1) len) (sumW tau s) =
      (List.range' (s + 1) len).map (fun r => sumW tau r / D) := by
  intro len
  induction len with
  | zero => intro s; rfl
  | succ len ih =>
    intro s
    rw [List.range'_succ]
    show (sumW tau s + wq tau (s + 1)) / D ::
        cumulationAux tau D (List.range' (s + 1 + 1) len) (sumW tau s + wq tau (s + 1)) = _
    have hsum : sumW tau s + wq tau (s + 1) = sumW tau (s + 1) := rfl
    rw [hsum, ih (s + 1), List.map_cons]

lemma cumulation_eq (tau n : ℕ) :
    cumulation tau n =
      (List.range' 1 (n - 1)).map (fun r => sumW tau r / sumW tau n) ++ [1] := by
  unfold cumulation
  have h0 : (0 : ℚ) = sumW tau 0 := rfl
  rw [h0, cumulationAux_range' tau (sumW tau n) (n - 1) 0]

lemma cumulation_length (tau n : ℕ) : (cumulation tau n).length = (n - 1) + 1 := by
  rw [cumulation_eq]
  simp [List.length_range']

lemma cumulation_getLast? (tau n : ℕ) : (cumulation tau n).getLast? = some 1 := by
  rw [cumulation_eq]
  exact List.getLast?_concat _

lemma one_mem_cumulation (tau n : ℕ) : (1 : ℚ) ∈ cumulation tau n := by
  rw [cumulation_eq]
  exact List.mem_append_right _ (List.mem_singleton.mpr rfl)

lemma cumulation_entry (tau n : ℕ) {i : ℕ} (hi : i < n - 1) :
    (cumulation tau n).getD i 0 = sumW tau (i + 1) / sumW tau n := by
  rw [cumulation_eq]
  have hmap : i < ((List.range' 1 (n - 1)).map (fun r => sumW tau r / sumW tau n)).length := by
    simpa [List.length_range'] using hi
  have hall : i < (((List.range' 1 (n - 1)).map
      (fun r => sumW tau r / sumW tau n)) ++ [1]).length := by
    rw [List.length_append, List.length_map, List.length_range']
    omega
  rw [List.getD_eq_getElem _ _ hall, List.getElem_append_left hmap, List.getElem_map]
  simp only [List.getElem_range']
  have h1 : 1 + 1 * i = i + 1 := by omega
  rw [h1]

lemma cumulation_sorted (tau n : ℕ) : List.Sorted (· ≤ ·) (cumulation tau n) := by
  rw [cumulation_eq]
  refine List.pairwise_append.mpr ⟨?_, List.pairwise_singleton _ _, ?_⟩
  · rw [List.pairwise_map]
    refine (List.pairwise_lt_range' 1 (n - 1)).imp ?_
    intro a b hab
    rcases eq_or_lt_of_le (sumW_nonneg tau n) with hD | hD
    · simp [← hD]
    · exact (div_le_div_right hD).mpr (sumW_mono tau hab.le)
  · intro x hx b hb
    rcases List.mem_map.mp hx with ⟨r, hr, rfl⟩
    rcases List.mem_range'_1.mp hr with ⟨hr1, hr2⟩
    have hn2 : 1 ≤ n := by omega
    have hrn : r ≤ n := by omega
    have hx1 : sumW tau r / sumW tau n ≤ 1 :=
      (div_le_one (sumW_pos tau hn2)).mpr (sumW_mono tau hrn)
    rcases List.mem_singleton.mp hb with rfl
    exact hx1

theorem c1_cumulative_breakpoints (tau n : ℕ) (htau : 0 < tau) (hn : 1 ≤ n) :
    (cumulation tau n).length = n ∧
    List.Sorted (· ≤ ·) (cumulation tau n) ∧
    (∀ i, i < n - 1 → (cumulation tau n).getD i 0 = sumW tau (i + 1) / sumW tau n) ∧
    (cumulation tau n).getLast? = some 1 := by
  refine ⟨?_, cumulation_sorted tau n, fun i hi => cumulation_entry tau n hi,
    cumulation_getLast? tau n⟩
  rw [cumulation_length]
  omega

theorem c1_cumulative_breakpoints_witness :
    ((0 : ℕ) < 3 ∧ (1 : ℕ) ≤ 3) ∧
    ((cumulation 3 3).length = 3 ∧
      List.Sorted (· ≤ ·) (cumulation 3 3) ∧
      (∀ i, i < 3 - 1 → (cumulation 3 3).getD i 0 = sumW 3 (i + 1) / sumW 3 3) ∧
      (cumulation 3 3).getLast? = some 1) :=
  ⟨⟨by decide, by decide⟩, c1_cumulative_breakpoints 3 3 (by decide) (by decide)⟩

lemma scanChoice_mem {α : Type} (f : ℚ) :
    ∀ {ps : List (ℚ × α)} {x : α}, scanChoice f ps = some x → ∃ c, (c, x) ∈ ps := by
  intro ps
  induction ps with
  | nil => intro x h; exact absurd h (by simp [scanChoice])
  | cons p rest ih =>
    intro x h
    rcases p with ⟨c, y⟩
    by_cases hc : f < c
    · rw [scanChoice, if_pos hc] at h
      exact ⟨c, by simp [Option.some_inj.mp h]⟩
    · rw [scanChoice, if_neg hc] at h
      rcases ih h with ⟨c', hc'⟩
      exact ⟨c', List.mem_cons_of_mem _ hc'⟩

lemma scanChoice_zip_spec {α : Type} (f : ℚ) :
    ∀ (cs : List ℚ) (xs : List α), cs.length = xs.length →
      (∃ c ∈ cs, f < c) →
      ∃ i, i < xs.length ∧ f < cs.getD i 0 ∧
        (∀ j, j < i → ¬ f < cs.getD j 0) ∧
        scanChoice f (cs.zip xs) = xs[i]? := by
  intro cs
  induction cs with
  | nil => intro xs _ hex; simp at hex
  | cons c cs ih =>
    intro xs hlen hex
    cases xs with
    | nil => simp at hlen
    | cons x xs =>
      by_cases hc : f < c
      · refine ⟨0, Nat.succ_pos _, by simpa using hc, by omega, ?_⟩
        simp [scanChoice, hc]
      · have hex' : ∃ c' ∈ cs, f < c' := by
          rcases hex with ⟨c', hc', hf⟩
          rcases List.mem_cons.mp hc' with rfl | h'
          · exact absurd hf hc
          · exact ⟨c', h', hf⟩
        have hlen' : cs.length = xs.length := by simpa using hlen
        rcases ih xs hlen' hex' with ⟨i, hi, hfi, hfirst, hscan⟩
        refine ⟨i + 1, by simpa using Nat.succ_lt_succ hi, by simpa using hfi, ?_, ?_⟩
        · intro j hj
          cases j with
          | zero => simpa using hc
          | succ j => simpa using hfirst j (by omega)
        · rw [List.zip_cons_cons, scanChoice, if_neg hc, hscan]
          simp

lemma choice_one_of_succeeds {α : Type} (tau : ℕ) (f : ℚ) (l : List α)
    (hne : l ≠ []) (h1 : f < 1) :
    ∃ x, choice_one_of tau f l = some x ∧ x ∈ l := by
  have hlen : (cumulation tau l.length).length = l.length := by
    rw [cumulation_length]
    have : 1 ≤ l.length := List.length_pos.mpr hne
    omega
  have hex : ∃ c ∈ cumulation tau l.length, f < c :=
    ⟨1, one_mem_cumulation tau l.length, h1⟩
  rcases scanChoice_zip_spec f (cumulation tau l.length) l hlen hex with
    ⟨i, hi, _, _, hscan⟩
  exact ⟨l[i], by rw [choice_one_of, hscan, List.getElem?_eq_getElem hi], List.getElem_mem hi⟩

theorem c2_choice_one_of_first_breakpoint {α : Type} (tau : ℕ) (f : ℚ) (l : List α)
    (hne : l ≠ []) (h0 : 0 ≤ f) (h1 : f < 1) :
    ∃ i, i < l.length ∧ f < (cumulation tau l.length).getD i 0 ∧
      (∀ j, j < i → ¬ f < (cumulation tau l.length).getD j 0) ∧
      choice_one_of tau f l = l[i]? ∧
      choice_one_of tau f l ≠ none := by
  have hlen : (cumulation tau l.length).length = l.length := by
    rw [cumulation_length]
    have : 1 ≤ l.length := List.length_pos.mpr hne
    omega
  have hex : ∃ c ∈ cumulation tau l.length, f < c :=
    ⟨1, one_mem_cumulation tau l.length, h1⟩
  rcases scanChoice_zip_spec f (cumulation tau l.length) l hlen hex with
    ⟨i, hi, hfi, hfirst, hscan⟩
  refine ⟨i, hi, hfi, hfirst, hscan, ?_⟩
  rw [choice_one_of, hscan, List.getElem?_eq_getElem hi]
  exact Option.some_ne_none _

theorem c2_choice_one_of_first_breakpoint_witness :
    (([10, 20] : List ℕ) ≠ [] ∧ (0 : ℚ) ≤ 1 / 2 ∧ (1 : ℚ) / 2 < 1) ∧
    (∃ i, i < ([10, 20] : List ℕ).length ∧
      (1 : ℚ) / 2 < (cumulation 3 ([10, 20] : List ℕ).length).getD i 0 ∧
      (∀ j, j < i → ¬ (1 : ℚ) / 2 < (cumulation 3 ([10, 20] : List ℕ).length).getD j 0) ∧
      choice_one_of 3 ((1 : ℚ) / 2) ([10, 20] : List ℕ) = ([10, 20] : List ℕ)[i]? ∧
      choice_one_of 3 ((1 : ℚ) / 2) ([10, 20] : List ℕ) ≠ none) :=
  ⟨⟨by decide, by norm_num, by norm_num⟩,
    c2_choice_one_of_first_breakpoint 3 (1 / 2) [10, 20] (by decide) (by norm_num) (by norm_num)⟩

theorem c8_weight_monotone (tau r1 r2 : ℕ) (htau : 0 < tau)
    (h1 : 1 ≤ r1) (h12 : r1 < r2) :
    memberWeight tau (r1 : ℤ) = some (1 / (r1 : ℚ) ^ tau) ∧
    wq tau r1 = 1 / (r1 : ℚ) ^ tau ∧
    wq tau r2 ≤ wq tau r1 := by
  have hq1 : (0 : ℚ) < (r1 : ℚ) := by exact_mod_cast Nat.lt_of_lt_of_le Nat.zero_lt_one h1
  have hpow1 : (0 : ℚ) < (r1 : ℚ) ^ tau := pow_pos hq1 tau
  refine ⟨?_, rfl, ?_⟩
  · rw [memberWeight, if_neg]
    · push_cast
      rfl
    · push_cast
      exact hpow1.ne'
  · unfold wq
    have hle : (r1 : ℚ) ^ tau ≤ (r2 : ℚ) ^ tau := by
      have : (r1 : ℚ) ≤ (r2 : ℚ) := by exact_mod_cast h12.le
      exact pow_le_pow_left hq1.le this tau
    exact one_div_le_one_div_of_le hpow1 hle

theorem c8_weight_monotone_witness :
    ((0 : ℕ) < 3 ∧ (1 : ℕ) ≤ 1 ∧ (1 : ℕ) < 2) ∧
    (memberWeight 3 ((1 : ℕ) : ℤ) = some (1 / ((1 : ℕ) : ℚ) ^ 3) ∧
      wq 3 1 = 1 / ((1 : ℕ) : ℚ) ^ 3 ∧ wq 3 2 ≤ wq 3 1) :=
  ⟨⟨by decide, by decide, by decide⟩, c8_weight_monotone 3 1 2 (by decide) (by decide) (by decide)⟩

theorem c9_counterexample :
    memberWeight 3 (-1) = some (-1) ∧ memberWeight 3 (-1) ≠ none := by
  constructor
  · norm_num [memberWeight]
  · norm_num [memberWeight]
    exact Option.some_ne_none _

theorem c9_amended (tau : ℕ) (r : ℤ) (htau : 0 < tau) :
    memberWeight tau 0 = none ∧
    (r ≤ -1 → memberWeight tau r = some (1 / (r : ℚ) ^ tau)) := by
  constructor
  · rw [memberWeight, if_pos]
    push_cast
    exact zero_pow htau.ne'
  · intro hr
    have hq : ((r : ℚ)) ≠ 0 := by
      have : (r : ℚ) < 0 := by exact_mod_cast Int.lt_of_le_sub_one (by omega)
      exact this.ne
    rw [memberWeight, if_neg (pow_ne_zero tau hq)]

theorem c9_amended_witness :
    ((0 : ℕ) < 3) ∧
    (memberWeight 3 0 = none ∧
      ((-2 : ℤ) ≤ -1 → memberWeight 3 (-2) = some (1 / ((-2 : ℤ) : ℚ) ^ 3))) :=
  ⟨by decide, c9_amended 3 (-2) (by decide)⟩

lemma interleaveGo_step {α : Type} [DecidableEq α] (tau k : ℕ) (flips : ℕ → Fin 2)
    (draws : ℕ → ℚ) (n i : ℕ) (ra rb : List α) (docs : List (Option α)) (idxs : List ℕ) :
    interleaveGo tau flips draws k (n + 1) i ra rb docs idxs =
      if k ≤ docs.length + 1 then
        some (docs ++ [choice_one_of tau (draws i) (if flips i = 0 then ra else rb)],
          idxs ++ [(flips i : ℕ)])
      else
        interleaveGo tau flips draws k n (i + 1)
          (removeDoc (choice_one_of tau (draws i) (if flips i = 0 then ra else rb)) ra)
          (removeDoc (choice_one_of tau (draws i) (if flips i = 0 then ra else rb)) rb)
          (docs ++ [choice_one_of tau (draws i) (if flips i = 0 then ra else rb)])
          (idxs ++ [(flips i : ℕ)]) := by
  rw [interleaveGo]
  simp

lemma nodup_append_singleton {α : Type} {l : List α} {a : α}
    (hl : l.Nodup) (ha : a ∉ l) : (l ++ [a]).Nodup :=
  List.nodup_append.mpr ⟨hl, List.nodup_singleton a, List.disjoint_singleton.mpr ha⟩

lemma interleaveGo_spec {α : Type} [DecidableEq α] (tau k : ℕ) (flips : ℕ → Fin 2)
    (draws : ℕ → ℚ) :
    ∀ (n i : ℕ) (ra rb : List α) (docs : List (Option α)) (idxs : List ℕ),
      n + docs.length = k → i = docs.length → idxs.length = docs.length →
      docs.length < k → (∀ x ∈ idxs, x < 2) →
      ∃ d idl, interleaveGo tau flips draws k n i ra rb docs idxs = some (d, idl) ∧
        d.length = k ∧ idl.length = k ∧ (∀ x ∈ idl, x < 2) ∧
        (InterNodupPre k ra rb docs ∧ DrawsOK draws →
          d.Nodup ∧ ∀ x ∈ d, x.isSome) := by
  intro n
  induction n with
  | zero => intro i ra rb docs idxs hn _ _ hlt _; omega
  | succ n ih =>
    intro i ra rb docs idxs hn hi hidx hlt hvals
    rw [interleaveGo_step]
    have hidxs2 : ∀ x ∈ idxs ++ [(flips i : ℕ)], x < 2 := by
      intro x hx
      rcases List.mem_append.mp hx with hx | hx
      · exact hvals x hx
      · rcases List.mem_singleton.mp hx with rfl
        exact (flips i).is_lt
    -- The chosen working list, and what sampling from it gives under the
    -- no-duplicates invariant.
    have hstep : ∀ (pre : InterNodupPre k ra rb docs) (hdr : DrawsOK draws),
        ∃ x : α, choice_one_of tau (draws i) (if flips i = 0 then ra else rb) = some x ∧
          x ∈ (if flips i = 0 then ra else rb) ∧ some x ∉ docs := by
      intro pre hdr
      obtain ⟨hra, hrb, hdocs, hdisj, hsome, hla, hlb⟩ := pre
      have hne : (if flips i = 0 then ra else rb) ≠ [] := by
        split
        · exact List.length_pos.mp (by omega)
        · exact List.length_pos.mp (by omega)
      obtain ⟨x, hx, hxmem⟩ :=
        choice_one_of_succeeds tau (draws i) (if flips i = 0 then ra else rb) hne (hdr i).2
      refine ⟨x, hx, hxmem, fun hmem => ?_⟩
      rcases hdisj x hmem with ⟨hxa, hxb⟩
      revert hxmem
      split
      · exact fun h => hxa h
      · exact fun h => hxb h
    by_cases hk : k ≤ docs.length + 1
    · rw [if_pos hk]
      have hkeq : docs.length + 1 = k := by omega
      refine ⟨_, _, rfl, by simp [hkeq], by simp [hidx, hkeq], hidxs2, ?_⟩
      rintro ⟨pre, hdr⟩
      obtain ⟨x, hx, _, hxnot⟩ := hstep pre hdr
      rw [hx]
      constructor
      · exact nodup_append_singleton pre.2.2.1 hxnot
      · intro d hd
        rcases List.mem_append.mp hd with hd | hd
        · exact pre.2.2.2.2.1 d hd
        · rcases List.mem_singleton.mp hd with rfl
          rfl
    · rw [if_neg hk]
      obtain ⟨d, idl, heq, hd, hidl, hv, hcond⟩ :=
        ih (i + 1) _ _ (docs ++ [choice_one_of tau (draws i) (if flips i = 0 then ra else rb)])
          (idxs ++ [(flips i : ℕ)])
          (by simp; omega) (by simp [hi]) (by simp [hidx]) (by simp; omega) hidxs2
      refine ⟨d, idl, heq, hd, hidl, hv, ?_⟩
      rintro ⟨pre, hdr⟩
      obtain ⟨x, hx, hxmem, hxnot⟩ := hstep pre hdr
      obtain ⟨hra, hrb, hdocs, hdisj, hsome, hla, hlb⟩ := pre
      refine hcond ⟨⟨?_, ?_, ?_, ?_, ?_, ?_, ?_⟩, hdr⟩
      · rw [hx]; exact hra.erase x
      · rw [hx]; exact hrb.erase x
      · rw [hx]; exact nodup_append_singleton hdocs hxnot
      · intro y hy
        rw [hx] at hy ⊢
        simp only [removeDoc]
        rcases List.mem_append.mp hy with hy | hy
        · rcases hdisj y hy with ⟨hya, hyb⟩
          exact ⟨fun h => hya (List.erase_subset x ra h), fun h => hyb (List.erase_subset x rb h)⟩
        · rcases List.mem_singleton.mp hy with h
          rcases Option.some_inj.mp h with rfl
          exact ⟨hra.not_mem_erase, hrb.not_mem_erase⟩
      · intro d hd
        rw [hx] at hd
        rcases List.mem_append.mp hd with hd | hd
        · exact hsome d hd
        · rcases List.mem_singleton.mp hd with rfl
          rfl
      · rw [hx]
        have : (ra.erase x).length = if x ∈ ra then ra.length - 1 else ra.length :=
          List.length_erase x ra
        simp only [removeDoc, List.length_append, List.length_singleton]
        split at this <;> omega
      · rw [hx]
        have : (rb.erase x).length = if x ∈ rb then rb.length - 1 else rb.length :=
          List.length_erase x rb
        simp only [removeDoc, List.length_append, List.length_singleton]
        split at this <;> omega

theorem c3_interleave_shape {α : Type} [DecidableEq α] (tau : ℕ) (flips : ℕ → Fin 2)
    (draws : ℕ → ℚ) (a b : List α) (ha : a ≠ []) (hb : b ≠ []) :
    ∃ r : Ranking α, interleave tau flips draws a b = some r ∧
      r.docs.length = min a.length b.length ∧
      r.rank_to_ranker_index.length = r.docs.length ∧
      (∀ x ∈ r.rank_to_ranker_index, x < 2) ∧
      r.number_of_rankers = 2 := by
  have hk : 0 < min a.length b.length :=
    lt_min (List.length_pos.mpr ha) (List.length_pos.mpr hb)
  obtain ⟨d, idl, heq, hd, hidl, hv, _⟩ :=
    interleaveGo_spec tau (min a.length b.length) flips draws (min a.length b.length) 0
      a b [] [] (by simp) rfl rfl (by simpa using hk) (by simp)
  refine ⟨⟨d, 2, idl⟩, ?_, hd, ?_, hv, rfl⟩
  · rw [interleave, heq]
    rfl
  · show idl.length = d.length
    rw [hd, hidl]

theorem c3_interleave_shape_witness :
    (([1, 2] : List ℕ) ≠ [] ∧ ([3] : List ℕ) ≠ []) ∧
    (∃ r : Ranking ℕ,
      interleave 3 (fun _ => 0) (fun _ => 0) [1, 2] [3] = some r ∧
      r.docs.length = min ([1, 2] : List ℕ).length ([3] : List ℕ).length ∧
      r.rank_to_ranker_index.length = r.docs.length ∧
      (∀ x ∈ r.rank_to_ranker_index, x < 2) ∧
      r.number_of_rankers = 2) :=
  ⟨⟨by decide, by decide⟩,
    c3_interleave_shape 3 (fun _ => 0) (fun _ => 0) [1, 2] [3] (by decide) (by decide)⟩

theorem c5_counterexample :
    (interleave 3 (fun _ => 0) (fun _ => 0) [1, 1] [1, 2]).map Ranking.docs =
      some [some 1, some 1] ∧
    ¬ ([some 1, some 1] : List (Option ℕ)).Nodup := by
  constructor
  · norm_num [interleave, interleaveGo, choice_one_of, cumulation, cumulationAux, sumW, wq,
      List.range', scanChoice, removeDoc, List.erase]
  · decide

lemma multileaveInner_cons {α : Type} [DecidableEq α] (tau k : ℕ) (draws : ℕ → ℚ)
    (idx : ℕ) (rest : List ℕ) (t : ℕ) (rankings : List (List α))
    (docs : List (Option α)) (idxs : List ℕ) (ranking : List α)
    (hget : rankings[idx]? = some ranking) :
    multileaveInner tau k draws (idx :: rest) t rankings docs idxs =
      if k ≤ docs.length + 1 then
        .done (docs ++ [choice_one_of tau (draws t) ranking]) (idxs ++ [idx])
      else
        multileaveInner tau k draws rest (t + 1)
          (rankings.map (removeDoc (choice_one_of tau (draws t) ranking)))
          (docs ++ [choice_one_of tau (draws t) ranking]) (idxs ++ [idx]) := by
  rw [multileaveInner, hget]
  simp

lemma multileaveInner_spec {α : Type} [DecidableEq α] (tau k m : ℕ)
    (draws draws2 : ℕ → ℚ) (hagree : ∀ j, j < k → draws2 j = draws j) :
    ∀ (order : List ℕ) (t : ℕ) (rankings : List (List α)) (docs : List (Option α))
      (idxs : List ℕ),
      rankings.length = m → (∀ x ∈ order, x < m) → t = docs.length →
      idxs.length = docs.length → docs.length < k → (∀ x ∈ idxs, x < m) →
      multileaveInner tau k draws2 order t rankings docs idxs =
        multileaveInner tau k draws order t rankings docs idxs ∧
      ((∃ d i, multileaveInner tau k draws order t rankings docs idxs = .done d i ∧
          d.length = k ∧ i.length = k ∧ (∀ x ∈ i, x < m) ∧
          (MultiNodupPre k rankings docs ∧ DrawsOK draws →
            d.Nodup ∧ ∀ x ∈ d, x.isSome)) ∨
       (∃ t2 r2 d2 i2,
          multileaveInner tau k draws order t rankings docs idxs = .next t2 r2 d2 i2 ∧
          t2 = d2.length ∧ i2.length = d2.length ∧ r2.length = m ∧
          d2.length = docs.length + order.length ∧ d2.length < k ∧
          (∀ x ∈ i2, x < m) ∧
          (MultiNodupPre k rankings docs ∧ DrawsOK draws →
            MultiNodupPre k r2 d2))) := by
  intro order
  induction order with
  | nil =>
    intro t rankings docs idxs hm _ ht hidx hlt hvals
    refine ⟨rfl, Or.inr ⟨t, rankings, docs, idxs, rfl, ht, hidx, hm, by simp, hlt, hvals,
      fun h => h.1⟩⟩
  | cons idx rest ih =>
    intro t rankings docs idxs hm horder ht hidx hlt hvals
    have hidxm : idx < rankings.length := by
      rw [hm]; exact horder idx (List.mem_cons_self idx rest)
    have hget : rankings[idx]? = some rankings[idx] := List.getElem?_eq_getElem hidxm
    have hrmem : rankings[idx] ∈ rankings := List.getElem_mem hidxm
    have hdr2 : draws2 t = draws t := hagree t (by omega)
    have hidxs2 : ∀ x ∈ idxs ++ [idx], x < m := by
      intro x hx
      rcases List.mem_append.mp hx with hx | hx
      · exact hvals x hx
      · rcases List.mem_singleton.mp hx with rfl
        exact horder x (List.mem_cons_self x rest)
    -- what sampling gives under the no-duplicates invariant
    have hstep : ∀ (pre : MultiNodupPre k rankings docs) (hdrw : DrawsOK draws),
        ∃ x : α, choice_one_of tau (draws t) rankings[idx] = some x ∧
          x ∈ rankings[idx] ∧ some x ∉ docs := by
      intro pre hdrw
      obtain ⟨hnd, hdocs, hdisj, hsome, hlen⟩ := pre
      have hne : rankings[idx] ≠ [] := by
        have := hlen _ hrmem
        exact List.length_pos.mp (by omega)
      obtain ⟨x, hx, hxmem⟩ :=
        choice_one_of_succeeds tau (draws t) rankings[idx] hne (hdrw t).2
      exact ⟨x, hx, hxmem, fun hmem => hdisj x hmem _ hrmem hxmem⟩
    rw [multileaveInner_cons tau k draws idx rest t rankings docs idxs _ hget,
      multileaveInner_cons tau k draws2 idx rest t rankings docs idxs _ hget, hdr2]
    by_cases hk : k ≤ docs.length + 1
    · rw [if_pos hk, if_pos hk]
      refine ⟨rfl, Or.inl ⟨_, _, rfl, ?_, ?_, hidxs2, ?_⟩⟩
      · simp only [List.length_append, List.length_singleton]
        omega
      · simp only [List.length_append, List.length_singleton, hidx]
        omega
      rintro ⟨pre, hdrw⟩
      obtain ⟨x, hx, _, hxnot⟩ := hstep pre hdrw
      rw [hx]
      refine ⟨nodup_append_singleton pre.2.1 hxnot, ?_⟩
      intro d hd
      rcases List.mem_append.mp hd with hd | hd
      · exact pre.2.2.2.1 d hd
      · rcases List.mem_singleton.mp hd with rfl
        rfl
    · rw [if_neg hk, if_neg hk]
      obtain ⟨hrec_eq, hrec⟩ :=
        ih (t + 1) (rankings.map (removeDoc (choice_one_of tau (draws t) rankings[idx])))
          (docs ++ [choice_one_of tau (draws t) rankings[idx]]) (idxs ++ [idx])
          (by rw [List.length_map, hm])
          (fun x hx => horder x (List.mem_cons_of_mem idx hx))
          (by simp [ht]) (by simp [hidx]) (by simp; omega) hidxs2
      have hpres : MultiNodupPre k rankings docs ∧ DrawsOK draws →
          MultiNodupPre k
            (rankings.map (removeDoc (choice_one_of tau (draws t) rankings[idx])))
            (docs ++ [choice_one_of tau (draws t) rankings[idx]]) := by
        rintro ⟨pre, hdrw⟩
        obtain ⟨x, hx, hxmem, hxnot⟩ := hstep pre hdrw
        obtain ⟨hnd, hdocs, hdisj, hsome, hlen⟩ := pre
        rw [hx]
        refine ⟨?_, ?_, ?_, ?_, ?_⟩
        · intro l hl
          rcases List.mem_map.mp hl with ⟨l0, hl0, rfl⟩
          simpa [removeDoc] using (hnd l0 hl0).erase x
        · exact nodup_append_singleton hdocs hxnot
        · intro y hy l hl
          rcases List.mem_map.mp hl with ⟨l0, hl0, rfl⟩
          simp only [removeDoc]
          rcases List.mem_append.mp hy with hy | hy
          · exact fun h => hdisj y hy l0 hl0 (List.erase_subset x l0 h)
          · rw [Option.some_inj.mp (List.mem_singleton.mp hy)]
            by_cases hxl : x ∈ l0
            · exact (hnd l0 hl0).not_mem_erase
            · exact fun h => hxl (List.erase_subset x l0 h)
        · intro d hd
          rcases List.mem_append.mp hd with hd | hd
          · exact hsome d hd
          · rcases List.mem_singleton.mp hd with rfl
            rfl
        · intro l hl
          rcases List.mem_map.mp hl with ⟨l0, hl0, rfl⟩
          have h0 := hlen l0 hl0
          have h1 : (l0.erase x).length = if x ∈ l0 then l0.length - 1 else l0.length :=
            List.length_erase x l0
          have h2 := hlen _ hrmem
          simp only [removeDoc, List.length_append, List.length_singleton]
          split at h1 <;> omega
      refine ⟨hrec_eq, ?_⟩
      rcases hrec with ⟨d, i, heq, hd, hi, hv, hcond⟩ |
        ⟨t2, r2, d2, i2, heq, h1, h2, h3, h4, h5, h6, hcond⟩
      · exact Or.inl ⟨d, i, heq, hd, hi, hv, fun h => hcond ⟨hpres h, h.2⟩⟩
      · refine Or.inr ⟨t2, r2, d2, i2, heq, h1, h2, h3, ?_, h5, h6,
          fun h => hcond ⟨hpres h, h.2⟩⟩
        simp only [List.length_append, List.length_singleton] at h4
        simp only [List.length_cons]
        omega

lemma multileaveGo_spec {α : Type} [DecidableEq α] (tau k m : ℕ) (shuffles : ℕ → List ℕ)
    (draws draws2 : ℕ → ℚ) (hagree : ∀ j, j < k → draws2 j = draws j)
    (hm1 : 1 ≤ m) (hperm : ∀ r, (shuffles r).Perm (List.range m)) :
    ∀ (fuel round t : ℕ) (rankings : List (List α)) (docs : List (Option α))
      (idxs : List ℕ),
      rankings.length = m → t = docs.length → idxs.length = docs.length →
      docs.length < k → k ≤ docs.length + fuel → (∀ x ∈ idxs, x < m) →
      ∃ d i, multileaveGo tau k shuffles draws fuel round t rankings docs idxs =
          some (d, i) ∧
        multileaveGo tau k shuffles draws2 fuel round t rankings docs idxs =
          some (d, i) ∧
        d.length = k ∧ i.length = k ∧ (∀ x ∈ i, x < m) ∧
        (MultiNodupPre k rankings docs ∧ DrawsOK draws →
          d.Nodup ∧ ∀ x ∈ d, x.isSome) := by
  intro fuel
  induction fuel with
  | zero => intro round t rankings docs idxs _ _ _ hlt hfuel _; omega
  | succ fuel ih =>
    intro round t rankings docs idxs hm ht hidx hlt hfuel hvals
    have horder : ∀ x ∈ (shuffles round).reverse, x < m := by
      intro x hx
      exact List.mem_range.mp ((hperm round).mem_iff.mp (List.mem_reverse.mp hx))
    have hordlen : (shuffles round).reverse.length = m := by
      rw [List.length_reverse, (hperm round).length_eq, List.length_range]
    obtain ⟨heq2, hout⟩ :=
      multileaveInner_spec tau k m draws draws2 hagree ((shuffles round).reverse) t
        rankings docs idxs hm horder ht hidx hlt hvals
    rcases hout with ⟨d, i, heq, hd, hi, hv, hcond⟩ |
      ⟨t2, r2, d2, i2, heq, h1, h2, h3, h4, h5, h6, hcond⟩
    · refine ⟨d, i, ?_, ?_, hd, hi, hv, hcond⟩
      · rw [multileaveGo, heq]
      · rw [multileaveGo, heq2, heq]
    · obtain ⟨d, i, hgo, hgo2, hd, hi, hv, hcond'⟩ :=
        ih (round + 1) t2 r2 d2 i2 h3 h1 h2 h5 (by rw [h4, hordlen]; omega) h6
      refine ⟨d, i, ?_, ?_, hd, hi, hv, fun h => hcond' ⟨hcond h, h.2⟩⟩
      · rw [multileaveGo, heq]
        exact hgo
      · rw [multileaveGo, heq2, heq]
        exact hgo2

lemma pyMin_le : ∀ (xs : List ℕ) (x : ℕ), ∀ y ∈ x :: xs, xs.foldl min x ≤ y := by
  intro xs
  induction xs with
  | nil =>
    intro x y hy
    rcases List.mem_singleton.mp hy with rfl
    exact le_refl _
  | cons z zs ih =>
    intro x y hy
    have hfold : (z :: zs).foldl min x = zs.foldl min (min x z) := rfl
    rcases List.mem_cons.mp hy with rfl | hy
    · rw [hfold]
      exact le_trans (ih (min y z) (min y z) (List.mem_cons_self _ _)) (min_le_left y z)
    · rcases List.mem_cons.mp hy with rfl | hy
      · rw [hfold]
        exact le_trans (ih (min x y) (min x y) (List.mem_cons_self _ _)) (min_le_right x y)
      · rw [hfold]
        exact ih (min x z) y (List.mem_cons_of_mem _ hy)

lemma pyMin_mem : ∀ (xs : List ℕ) (x : ℕ), xs.foldl min x ∈ x :: xs := by
  intro xs
  induction xs with
  | nil => intro x; exact List.mem_singleton.mpr rfl
  | cons z zs ih =>
    intro x
    have hfold : (z :: zs).foldl min x = zs.foldl min (min x z) := rfl
    rw [hfold]
    rcases List.mem_cons.mp (ih (min x z)) with h | h
    · rcases min_choice x z with heq | heq
      · rw [h, heq]
        exact List.mem_cons_self _ _
      · rw [h, heq]
        exact List.mem_cons_of_mem _ (List.mem_cons_self _ _)
    · exact List.mem_cons_of_mem _ (List.mem_cons_of_mem _ h)

theorem c4_multileave_shape {α : Type} [DecidableEq α] (tau : ℕ) (shuffles : ℕ → List ℕ)
    (draws draws2 : ℕ → ℚ) (lists : List (List α)) (k : ℕ)
    (hm : 2 ≤ lists.length)
    (hne : ∀ l ∈ lists, l ≠ [])
    (hperm : ∀ t, (shuffles t).Perm (List.range lists.length))
    (hk : pyMin (lists.map List.length) = some k)
    (hagree : ∀ j, j < k → draws2 j = draws j) :
    ∃ r : Ranking α, multileave tau shuffles draws lists = some r ∧
      r.docs.length = k ∧
      r.rank_to_ranker_index.length = r.docs.length ∧
      (∀ x ∈ r.rank_to_ranker_index, x < lists.length) ∧
      r.number_of_rankers = lists.length ∧
      multileave tau shuffles draws2 lists = multileave tau shuffles draws lists := by
  cases lists with
  | nil => simp at hm
  | cons l0 ls =>
    have hkval : k = (ls.map List.length).foldl min l0.length := by
      have : pyMin ((l0 :: ls).map List.length) = some ((ls.map List.length).foldl min l0.length) := rfl
      rw [this] at hk
      exact (Option.some_inj.mp hk).symm
    have hkle : ∀ l ∈ l0 :: ls, k ≤ l.length := by
      intro l hl
      rw [hkval]
      rcases List.mem_cons.mp hl with rfl | hl
      · exact pyMin_le (ls.map List.length) l.length l.length (List.mem_cons_self _ _)
      · exact pyMin_le (ls.map List.length) l0.length l.length
          (List.mem_cons_of_mem _ (List.mem_map_of_mem List.length hl))
    have hk1 : 1 ≤ k := by
      have hmem : k ∈ l0.length :: ls.map List.length := by
        rw [hkval]; exact pyMin_mem (ls.map List.length) l0.length
      rcases List.mem_cons.mp hmem with h | h
      · have := List.length_pos.mpr (hne l0 (List.mem_cons_self _ _))
        omega
      · rcases List.mem_map.mp h with ⟨l, hl, hlen⟩
        have := List.length_pos.mpr (hne l (List.mem_cons_of_mem _ hl))
        omega
    obtain ⟨d, i, hgo, hgo2, hd, hi, hv, _⟩ :=
      multileaveGo_spec tau k (l0 :: ls).length shuffles draws draws2 hagree
        (by simp) hperm (k + 1) 0 0 (l0 :: ls) [] [] rfl rfl rfl (by simpa using hk1)
        (by simp) (by simp)
    have hunfold : ∀ dr, multileaveGo tau k shuffles dr (k + 1) 0 0 (l0 :: ls) [] [] = some (d, i) →
        multileave tau shuffles dr (l0 :: ls) =
          some (⟨d, (l0 :: ls).length, i⟩ : Ranking α) := by
      intro dr hdrw
      have h1 : multileave tau shuffles dr (l0 :: ls) =
          Option.map (fun p => (⟨p.1, (l0 :: ls).length, p.2⟩ : Ranking α))
            (multileaveGo tau k shuffles dr (k + 1) 0 0 (l0 :: ls) [] []) := by
        rw [multileave, hk]
      rw [h1, hdrw]
      rfl
    refine ⟨⟨d, (l0 :: ls).length, i⟩, hunfold draws hgo, hd, ?_, hv, rfl, ?_⟩
    · show i.length = d.length
      rw [hd, hi]
    · rw [hunfold draws hgo, hunfold draws2 hgo2]

theorem c4_multileave_shape_witness :
    ((2 : ℕ) ≤ ([[1, 2], [3, 4]] : List (List ℕ)).length ∧
      pyMin (([[1, 2], [3, 4]] : List (List ℕ)).map List.length) = some 2) ∧
    (∃ r : Ranking ℕ,
      multileave 3 (fun _ => [1, 0]) (fun _ => 0) [[1, 2], [3, 4]] = some r ∧
      r.docs.length = 2 ∧
      r.rank_to_ranker_index.length = r.docs.length ∧
      (∀ x ∈ r.rank_to_ranker_index, x < ([[1, 2], [3, 4]] : List (List ℕ)).length) ∧
      r.number_of_rankers = ([[1, 2], [3, 4]] : List (List ℕ)).length ∧
      multileave 3 (fun _ => [1, 0]) (fun j => if j < 2 then 0 else 1 / 2) [[1, 2], [3, 4]] =
        multileave 3 (fun _ => [1, 0]) (fun _ => 0) [[1, 2], [3, 4]]) :=
  ⟨⟨by decide, by rfl⟩,
    c4_multileave_shape 3 (fun _ => [1, 0]) (fun _ => 0) (fun j => if j < 2 then 0 else 1 / 2)
      [[1, 2], [3, 4]] 2 (by decide) (by decide)
      (fun _ => show ([1, 0] : List ℕ).Perm (List.range 2) by decide) (by rfl)
      (fun j hj => by simp [hj])⟩

theorem c5_no_duplicates_for_nodup_inputs {α : Type} [DecidableEq α] (tau : ℕ)
    (draws : ℕ → ℚ) (hdr : DrawsOK draws) :
    (∀ (flips : ℕ → Fin 2) (a b : List α), a ≠ [] → b ≠ [] → a.Nodup → b.Nodup →
      ∃ r : Ranking α, interleave tau flips draws a b = some r ∧
        r.docs.Nodup ∧ ∀ d ∈ r.docs, d.isSome) ∧
    (∀ (shuffles : ℕ → List ℕ) (lists : List (List α)) (k : ℕ),
      1 ≤ lists.length → (∀ l ∈ lists, l ≠ []) → (∀ l ∈ lists, l.Nodup) →
      (∀ t, (shuffles t).Perm (List.range lists.length)) →
      pyMin (lists.map List.length) = some k →
      ∃ r : Ranking α, multileave tau shuffles draws lists = some r ∧
        r.docs.Nodup ∧ ∀ d ∈ r.docs, d.isSome) := by
  constructor
  · intro flips a b ha hb hna hnb
    have hk : 0 < min a.length b.length :=
      lt_min (List.length_pos.mpr ha) (List.length_pos.mpr hb)
    obtain ⟨d, idl, heq, _, _, _, hcond⟩ :=
      interleaveGo_spec tau (min a.length b.length) flips draws (min a.length b.length) 0
        a b [] [] (by simp) rfl rfl (by simpa using hk) (by simp)
    have hpre : InterNodupPre (min a.length b.length) a b [] := by
      refine ⟨hna, hnb, List.nodup_nil, by simp, by simp, ?_, ?_⟩
      · simpa using Nat.min_le_left a.length b.length
      · simpa using Nat.min_le_right a.length b.length
    obtain ⟨hnd, hsome⟩ := hcond ⟨hpre, hdr⟩
    exact ⟨⟨d, 2, idl⟩, by rw [interleave, heq]; rfl, hnd, hsome⟩
  · intro shuffles lists k hm hne hnodup hperm hk
    cases lists with
    | nil => simp at hm
    | cons l0 ls =>
      have hkval : k = (ls.map List.length).foldl min l0.length := by
        have h0 : pyMin ((l0 :: ls).map List.length) =
            some ((ls.map List.length).foldl min l0.length) := rfl
        rw [h0] at hk
        exact (Option.some_inj.mp hk).symm
      have hkle : ∀ l ∈ l0 :: ls, k ≤ l.length := by
        intro l hl
        rw [hkval]
        rcases List.mem_cons.mp hl with rfl | hl
        · exact pyMin_le (ls.map List.length) l.length l.length (List.mem_cons_self _ _)
        · exact pyMin_le (ls.map List.length) l0.length l.length
            (List.mem_cons_of_mem _ (List.mem_map_of_mem List.length hl))
      have hk1 : 1 ≤ k := by
        have hmem : k ∈ l0.length :: ls.map List.length := by
          rw [hkval]; exact pyMin_mem (ls.map List.length) l0.length
        rcases List.mem_cons.mp hmem with h | h
        · have := List.length_pos.mpr (hne l0 (List.mem_cons_self _ _))
          omega
        · rcases List.mem_map.mp h with ⟨l, hl, hlen⟩
          have := List.length_pos.mpr (hne l (List.mem_cons_of_mem _ hl))
          omega
      obtain ⟨d, i, hgo, _, _, _, _, hcond⟩ :=
        multileaveGo_spec tau k (l0 :: ls).length shuffles draws draws (fun _ _ => rfl)
          (by simp) hperm (k + 1) 0 0 (l0 :: ls) [] [] rfl rfl rfl (by simpa using hk1)
          (by simp) (by simp)
      have hpre : MultiNodupPre k (l0 :: ls) ([] : List (Option α)) := by
        refine ⟨hnodup, List.nodup_nil, by simp, by simp, ?_⟩
        intro l hl
        simpa using hkle l hl
      obtain ⟨hnd, hsome⟩ := hcond ⟨hpre, hdr⟩
      refine ⟨⟨d, (l0 :: ls).length, i⟩, ?_, hnd, hsome⟩
      have h1 : multileave tau shuffles draws (l0 :: ls) =
          Option.map (fun p => (⟨p.1, (l0 :: ls).length, p.2⟩ : Ranking α))
            (multileaveGo tau k shuffles draws (k + 1) 0 0 (l0 :: ls) [] []) := by
        rw [multileave, hk]
      rw [h1, hgo]
      rfl

theorem c5_no_duplicates_witness :
    DrawsOK (fun _ => 0) ∧
    (∃ r : Ranking ℕ, interleave 3 (fun _ => 0) (fun _ => 0) [1, 2] [3, 4] = some r ∧
      r.docs.Nodup ∧ ∀ d ∈ r.docs, d.isSome) :=
  have hdr : DrawsOK (fun _ => 0) := fun _ => ⟨le_refl 0, by norm_num⟩
  ⟨hdr, (c5_no_duplicates_for_nodup_inputs 3 (fun _ => 0) hdr).1 (fun _ => 0) [1, 2] [3, 4]
    (by decide) (by decide) (by decide) (by decide)⟩

theorem c7_counterexample :
    multileave 3 (fun _ => [1, 0]) (fun _ => 0) [[1, 2], ([] : List ℕ)] =
      some ⟨[some 1], 2, [0]⟩ ∧
    (multileave 3 (fun _ => [1, 0]) (fun _ => 0) [[1, 2], ([] : List ℕ)]).isSome := by
  have h : multileave 3 (fun _ => [1, 0]) (fun _ => 0) [[1, 2], ([] : List ℕ)] =
      some ⟨[some 1], 2, [0]⟩ := by
    norm_num [multileave, pyMin, multileaveGo, multileaveInner, choice_one_of, cumulation,
      cumulationAux, sumW, wq, List.range', scanChoice, removeDoc, List.erase]
  exact ⟨h, by rw [h]; rfl⟩

theorem c7_amended {α : Type} [DecidableEq α] (tau : ℕ) (flips : ℕ → Fin 2)
    (draws : ℕ → ℚ) (shuffles : ℕ → List ℕ) (lists : List (List α))
    (hmem : [] ∈ lists)
    (hperm : ∀ t, (shuffles t).Perm (List.range lists.length)) :
    (∀ b : List α, interleave tau flips draws [] b = none) ∧
    (∀ a : List α, interleave tau flips draws a [] = none) ∧
    (∃ r : Ranking α, multileave tau shuffles draws lists = some r ∧
      r.docs.length = 1 ∧ r.number_of_rankers = lists.length) := by
  refine ⟨?_, ?_, ?_⟩
  · intro b
    simp [interleave, interleaveGo]
  · intro a
    simp [interleave, interleaveGo]
  · cases lists with
    | nil => simp at hmem
    | cons l0 ls =>
      have hk0 : pyMin ((l0 :: ls).map List.length) = some 0 := by
        have hkv : pyMin ((l0 :: ls).map List.length) =
            some ((ls.map List.length).foldl min l0.length) := rfl
        rw [hkv]
        congr 1
        have hle : (ls.map List.length).foldl min l0.length ≤ 0 := by
          rcases List.mem_cons.mp hmem with h | h
          · have h0 : l0.length = 0 := by rw [← h]; rfl
            have := pyMin_le (ls.map List.length) l0.length l0.length
              (List.mem_cons_self _ _)
            omega
          · have h0 : (0 : ℕ) ∈ ls.map List.length := by
              simpa using List.mem_map_of_mem List.length h
            exact pyMin_le (ls.map List.length) l0.length 0 (List.mem_cons_of_mem _ h0)
        omega
      obtain ⟨idx, rest, horder⟩ : ∃ idx rest, (shuffles 0).reverse = idx :: rest := by
        have hlen : (shuffles 0).reverse.length = (l0 :: ls).length := by
          rw [List.length_reverse, (hperm 0).length_eq, List.length_range]
        cases hrev : (shuffles 0).reverse with
        | nil => rw [hrev] at hlen; simp at hlen
        | cons a b => exact ⟨a, b, rfl⟩
      have hidxm : idx < (l0 :: ls).length := by
        have hmem0 : idx ∈ shuffles 0 :=
          List.mem_reverse.mp (horder ▸ List.mem_cons_self idx rest)
        exact List.mem_range.mp ((hperm 0).mem_iff.mp hmem0)
      have hget : (l0 :: ls)[idx]? = some (l0 :: ls)[idx] := List.getElem?_eq_getElem hidxm
      have hinner : multileaveInner tau 0 draws ((shuffles 0).reverse) 0 (l0 :: ls)
          ([] : List (Option α)) [] =
          .done [choice_one_of tau (draws 0) (l0 :: ls)[idx]] [idx] := by
        rw [horder, multileaveInner_cons tau 0 draws idx rest 0 (l0 :: ls) [] [] _ hget]
        simp
      have hgo : multileaveGo tau 0 shuffles draws (0 + 1) 0 0 (l0 :: ls)
          ([] : List (Option α)) [] =
          some ([choice_one_of tau (draws 0) (l0 :: ls)[idx]], [idx]) := by
        rw [multileaveGo, hinner]
      refine ⟨⟨[choice_one_of tau (draws 0) (l0 :: ls)[idx]], (l0 :: ls).length, [idx]⟩,
        ?_, rfl, rfl⟩
      have h1 : multileave tau shuffles draws (l0 :: ls) =
          Option.map (fun p => (⟨p.1, (l0 :: ls).length, p.2⟩ : Ranking α))
            (multileaveGo tau 0 shuffles draws (0 + 1) 0 0 (l0 :: ls) [] []) := by
        rw [multileave, hk0]
      rw [h1, hgo]
      rfl

theorem c7_amended_witness :
    (([] : List ℕ) ∈ [[1, 2], ([] : List ℕ)]) ∧
    ((∀ b : List ℕ, interleave 3 (fun _ => 0) (fun _ => 0) [] b = none) ∧
      (∀ a : List ℕ, interleave 3 (fun _ => 0) (fun _ => 0) a [] = none) ∧
      (∃ r : Ranking ℕ,
        multileave 3 (fun _ => [1, 0]) (fun _ => 0) [[1, 2], ([] : List ℕ)] = some r ∧
        r.docs.length = 1 ∧
        r.number_of_rankers = ([[1, 2], ([] : List ℕ)] : List (List ℕ)).length)) :=
  ⟨by decide,
    c7_amended 3 (fun _ => 0) (fun _ => 0) (fun _ => [1, 0]) [[1, 2], ([] : List ℕ)]
      (by decide) (fun _ => show ([1, 0] : List ℕ).Perm (List.range 2) by decide)⟩

lemma pyGet_valid {β : Type} (l : List β) (p : ℤ)
    (h1 : -(l.length : ℤ) ≤ p) (h2 : p < (l.length : ℤ)) :
    ∃ j : ℕ, j < l.length ∧ ((j : ℤ) = if p < 0 then (l.length : ℤ) + p else p) ∧
      pyGet l p = l[j]? := by
  by_cases hp : p < 0
  · refine ⟨((l.length : ℤ) + p).toNat, by omega, by rw [if_pos hp]; omega, ?_⟩
    simp only [pyGet]
    rw [if_pos hp, if_pos (by omega : (0 : ℤ) ≤ (l.length : ℤ) + p)]
  · refine ⟨p.toNat, by omega, by rw [if_neg hp]; omega, ?_⟩
    simp only [pyGet]
    rw [if_neg hp, if_pos (by omega : (0 : ℤ) ≤ p)]

lemma pyGet_none {β : Type} (l : List β) (p : ℤ)
    (h : (l.length : ℤ) ≤ p ∨ p < -(l.length : ℤ)) : pyGet l p = none := by
  rcases h with h | h
  · have hp : ¬ p < 0 := by omega
    simp only [pyGet]
    rw [if_neg hp, if_pos (by omega : (0 : ℤ) ≤ p)]
    exact List.getElem?_eq_none (by omega)
  · have hp : p < 0 := by omega
    simp only [pyGet]
    rw [if_pos hp, if_neg (by omega : ¬ (0 : ℤ) ≤ (l.length : ℤ) + p)]

lemma countClicks_spec (rtri : List ℕ) (m : ℕ) (hvals : ∀ x ∈ rtri, x < m) :
    ∀ (clicks : List ℤ) (counts : List ℕ), counts.length = m →
      (∀ p ∈ clicks, -(rtri.length : ℤ) ≤ p ∧ p < (rtri.length : ℤ)) →
      ∃ counts2, countClicks rtri clicks counts = some counts2 ∧ counts2.length = m := by
  intro clicks
  induction clicks with
  | nil => intro counts hlen _; exact ⟨counts, rfl, hlen⟩
  | cons p rest ih =>
    intro counts hlen hcl
    obtain ⟨j, hj, _, hpg⟩ := pyGet_valid rtri p (hcl p (List.mem_cons_self _ _)).1
      (hcl p (List.mem_cons_self _ _)).2
    have hidx : rtri[j] < m := hvals _ (List.getElem_mem hj)
    rw [countClicks, hpg, List.getElem?_eq_getElem hj, Option.some_bind,
      dif_pos (show rtri[j] < counts.length by omega)]
    exact ih _ (by rw [List.length_set]; exact hlen)
      (fun q hq => hcl q (List.mem_cons_of_mem _ hq))

theorem c6_evaluate_win_vector {α : Type} (r : Ranking α) (clicks : List ℤ) (m : ℕ)
    (hm : r.number_of_rankers = m) (hm0 : 0 < m)
    (hvals : ∀ x ∈ r.rank_to_ranker_index, x < m)
    (hclicks : ∀ p ∈ clicks, -(r.rank_to_ranker_index.length : ℤ) ≤ p ∧
      p < (r.rank_to_ranker_index.length : ℤ)) :
    (∃ counts v, evaluateCounts r.rank_to_ranker_index m clicks = some counts ∧
      counts.length = m ∧
      evaluate r clicks = some v ∧ v.length = m ∧
      (maxOf counts = minOf counts → ∀ x ∈ v, x = 0) ∧
      (maxOf counts ≠ minOf counts →
        v = counts.map (fun c => if maxOf counts = c then 1 else 0))) ∧
    evaluate (⟨[some 1, some 2, some 3, some 4], 2, [0, 1, 0, 1]⟩ : Ranking ℕ) [0] =
      some [1, 0] := by
  refine ⟨?_, by rfl⟩
  obtain ⟨counts, hc, hlen⟩ := countClicks_spec r.rank_to_ranker_index m hvals clicks
    (List.replicate m 0) (List.length_replicate m 0) hclicks
  have hc' : evaluateCounts r.rank_to_ranker_index m clicks = some counts := hc
  have hne : counts.isEmpty = false := by
    cases counts with
    | nil => rw [List.length_nil] at hlen; omega
    | cons c cs => rfl
  by_cases hmx : maxOf counts = minOf counts
  · refine ⟨counts, counts.map (fun _ => 0), hc', hlen, ?_, by rw [List.length_map]; exact hlen,
      fun _ => ?_, fun h => absurd hmx h⟩
    · rw [evaluate, hm, hc', Option.some_bind, hne]
      simp only [Bool.false_eq_true, if_false, if_pos hmx]
    · intro x hx
      rcases List.mem_map.mp hx with ⟨_, _, rfl⟩
      rfl
  · refine ⟨counts, counts.map (fun c => if maxOf counts = c then 1 else 0), hc', hlen, ?_,
      by rw [List.length_map]; exact hlen, fun h => absurd h hmx, fun _ => rfl⟩
    rw [evaluate, hm, hc', Option.some_bind, hne]
    simp only [Bool.false_eq_true, if_false, if_neg hmx]

theorem c6_evaluate_win_vector_witness :
    ((0 : ℕ) < 2 ∧
      (∀ x ∈ ([0, 1, 0, 1] : List ℕ), x < 2)) ∧
    ((∃ counts v,
        evaluateCounts ([0, 1, 0, 1] : List ℕ) 2 [0] = some counts ∧
        counts.length = 2 ∧
        evaluate (⟨[some 1, some 2, some 3, some 4], 2, [0, 1, 0, 1]⟩ : Ranking ℕ) [0] =
          some v ∧
        v.length = 2 ∧
        (maxOf counts = minOf counts → ∀ x ∈ v, x = 0) ∧
        (maxOf counts ≠ minOf counts →
          v = counts.map (fun c => if maxOf counts = c then 1 else 0))) ∧
      evaluate (⟨[some 1, some 2, some 3, some 4], 2, [0, 1, 0, 1]⟩ : Ranking ℕ) [0] =
        some [1, 0]) :=
  ⟨⟨by decide, by decide⟩,
    c6_evaluate_win_vector (⟨[some 1, some 2, some 3, some 4], 2, [0, 1, 0, 1]⟩ : Ranking ℕ)
      [0] 2 rfl (by decide) (by decide) (by decide)⟩

theorem c10_evaluate_indexing {α : Type} (r : Ranking α) (m : ℕ) (p : ℤ)
    (hm : r.number_of_rankers = m) (hm0 : 0 < m)
    (hvals : ∀ x ∈ r.rank_to_ranker_index, x < m) :
    (((r.rank_to_ranker_index.length : ℤ) ≤ p ∨
        p < -(r.rank_to_ranker_index.length : ℤ)) →
      evaluate r [p] = none) ∧
    (-(r.rank_to_ranker_index.length : ℤ) ≤ p → p < 0 →
      ∃ j : ℕ, j < r.rank_to_ranker_index.length ∧
        (j : ℤ) = (r.rank_to_ranker_index.length : ℤ) + p ∧
        pyGet r.rank_to_ranker_index p = r.rank_to_ranker_index[j]? ∧
        (evaluate r [p]).isSome) ∧
    (-(r.rank_to_ranker_index.length : ℤ) ≤ p →
      p < (r.rank_to_ranker_index.length : ℤ) →
      ∃ j : ℕ, ∃ hj : j < r.rank_to_ranker_index.length,
        evaluateCounts r.rank_to_ranker_index m [p] =
          some ((List.replicate m 0).set (r.rank_to_ranker_index.get ⟨j, hj⟩) 1) ∧
        evaluateCounts r.rank_to_ranker_index m [p, p] =
          some ((List.replicate m 0).set (r.rank_to_ranker_index.get ⟨j, hj⟩) 2) ∧
        ((List.replicate m 0).set (r.rank_to_ranker_index.get ⟨j, hj⟩) 2).getD
          (r.rank_to_ranker_index.get ⟨j, hj⟩) 0 = 2) := by
  refine ⟨?_, ?_, ?_⟩
  · intro h
    have hpg : pyGet r.rank_to_ranker_index p = none := pyGet_none _ p h
    rw [evaluate, evaluateCounts, countClicks, hpg, Option.none_bind]
    rfl
  · intro h1 h2
    obtain ⟨j, hj, hjeq, hpg⟩ := pyGet_valid r.rank_to_ranker_index p h1 (by omega)
    refine ⟨j, hj, by rw [hjeq, if_pos h2], hpg, ?_⟩
    obtain ⟨counts, hc, hlen⟩ := countClicks_spec r.rank_to_ranker_index m hvals [p]
      (List.replicate m 0) (List.length_replicate m 0)
      (fun q hq => by rcases List.mem_singleton.mp hq with rfl; exact ⟨h1, by omega⟩)
    have hne : counts.isEmpty = false := by
      cases counts with
      | nil => rw [List.length_nil] at hlen; omega
      | cons c cs => rfl
    rw [evaluate, hm]
    rw [show evaluateCounts r.rank_to_ranker_index m [p] = some counts from hc,
      Option.some_bind, hne]
    simp only [Bool.false_eq_true, if_false]
    split <;> rfl
  · intro h1 h2
    obtain ⟨j, hj, hjeq, hpg⟩ := pyGet_valid r.rank_to_ranker_index p h1 h2
    have hget : r.rank_to_ranker_index[j]? = some (r.rank_to_ranker_index.get ⟨j, hj⟩) :=
      List.getElem?_eq_getElem hj
    have hidx : r.rank_to_ranker_index.get ⟨j, hj⟩ < m :=
      hvals _ (by simpa using List.getElem_mem hj)
    have hlt0 : r.rank_to_ranker_index.get ⟨j, hj⟩ < (List.replicate m 0 : List ℕ).length := by
      rw [List.length_replicate]; omega
    have hrep : (List.replicate m 0 : List ℕ).get ⟨r.rank_to_ranker_index.get ⟨j, hj⟩, hlt0⟩ = 0 := by
      simp only [List.get_eq_getElem]
      exact List.getElem_replicate 0 hlt0
    have hstep1 : countClicks r.rank_to_ranker_index [p] (List.replicate m 0) =
        some ((List.replicate m 0).set (r.rank_to_ranker_index.get ⟨j, hj⟩) 1) := by
      rw [countClicks, hpg, hget, Option.some_bind, dif_pos hlt0, countClicks]
      rw [hrep]
    have hlt1 : r.rank_to_ranker_index.get ⟨j, hj⟩ <
        ((List.replicate m 0).set (r.rank_to_ranker_index.get ⟨j, hj⟩) 1).length := by
      rw [List.length_set, List.length_replicate]; omega
    have hget1 : ((List.replicate m 0).set (r.rank_to_ranker_index.get ⟨j, hj⟩) 1).get
        ⟨r.rank_to_ranker_index.get ⟨j, hj⟩, hlt1⟩ = 1 := by
      simp only [List.get_eq_getElem]
      exact List.getElem_set_self hlt1
    have hstep2 : countClicks r.rank_to_ranker_index [p, p] (List.replicate m 0) =
        some ((List.replicate m 0).set (r.rank_to_ranker_index.get ⟨j, hj⟩) 2) := by
      rw [countClicks, hpg, hget, Option.some_bind, dif_pos hlt0]
      rw [hrep]
      rw [countClicks, hpg, hget, Option.some_bind, dif_pos hlt1]
      rw [hget1, countClicks]
      rw [List.set_set]
    refine ⟨j, hj, hstep1, hstep2, ?_⟩
    have hlt2 : r.rank_to_ranker_index.get ⟨j, hj⟩ <
        ((List.replicate m 0).set (r.rank_to_ranker_index.get ⟨j, hj⟩) 2).length := by
      rw [List.length_set, List.length_replicate]; omega
    rw [List.getD_eq_getElem _ _ hlt2]
    exact List.getElem_set_self hlt2

theorem c10_evaluate_indexing_witness :
    ((0 : ℕ) < 2 ∧ (∀ x ∈ ([0, 1, 0, 1] : List ℕ), x < 2)) ∧
    ((((([0, 1, 0, 1] : List ℕ).length : ℤ) ≤ -1 ∨
        (-1 : ℤ) < -(([0, 1, 0, 1] : List ℕ).length : ℤ)) →
      evaluate (⟨[some 1, some 2, some 3, some 4], 2, [0, 1, 0, 1]⟩ : Ranking ℕ) [-1] =
        none) ∧
    (-(([0, 1, 0, 1] : List ℕ).length : ℤ) ≤ -1 → (-1 : ℤ) < 0 →
      ∃ j : ℕ, j < ([0, 1, 0, 1] : List ℕ).length ∧
        (j : ℤ) = (([0, 1, 0, 1] : List ℕ).length : ℤ) + -1 ∧
        pyGet ([0, 1, 0, 1] : List ℕ) (-1) = ([0, 1, 0, 1] : List ℕ)[j]? ∧
        (evaluate (⟨[some 1, some 2, some 3, some 4], 2, [0, 1, 0, 1]⟩ : Ranking ℕ)
          [-1]).isSome) ∧
    (-(([0, 1, 0, 1] : List ℕ).length : ℤ) ≤ -1 →
      (-1 : ℤ) < (([0, 1, 0, 1] : List ℕ).length : ℤ) →
      ∃ j : ℕ, ∃ hj : j < ([0, 1, 0, 1] : List ℕ).length,
        evaluateCounts ([0, 1, 0, 1] : List ℕ) 2 [-1] =
          some ((List.replicate 2 0).set (([0, 1, 0, 1] : List ℕ).get ⟨j, hj⟩) 1) ∧
        evaluateCounts ([0, 1, 0, 1] : List ℕ) 2 [-1, -1] =
          some ((List.replicate 2 0).set (([0, 1, 0, 1] : List ℕ).get ⟨j, hj⟩) 2) ∧
        ((List.replicate 2 0).set (([0, 1, 0, 1] : List ℕ).get ⟨j, hj⟩) 2).getD
          (([0, 1, 0, 1] : List ℕ).get ⟨j, hj⟩) 0 = 2)) :=
  ⟨⟨by decide, by decide⟩,
    c10_evaluate_indexing (⟨[some 1, some 2, some 3, some 4], 2, [0, 1, 0, 1]⟩ : Ranking ℕ)
      2 (-1) rfl (by decide) (by decide)⟩

end ProbInterleave
